import Mathlib

/-!
Verification of the segcore storage-and-query engine: data model, sealed
index record, delete-visibility bitmap, offset reservation, and the
cross-segment search-result reduction.

Machine floats that only ever flow through comparisons and copies are
modelled as rationals; machine integers that never overflow in the code
paths under study are modelled as Int or Nat.
-/

namespace Segcore

/-- Primary-key value. Modelled from the spec: `PkType` and `INVALID_PK`
live in common/Consts.h and common/QueryResult.h, which are not part of
the sources at hand; the spec describes the primary key as
"integer or string, schema-defined", and the reduction code assigns a
distinguished invalid sentinel `INVALID_PK` to exhausted merge cursors. -/
inductive PkType where
  | invalid : PkType
  | intPk : Int → PkType
  | strPk : List Char → PkType
deriving DecidableEq, Repr

/-- `INVALID_PK` sentinel from common/Consts.h (modelled, see `PkType`). -/
def INVALID_PK : PkType := PkType.invalid

/-- Metric enum, from the `faiss::MetricType` cases enumerated in
segcore/Utils.h `MetricTypeToString`. -/
inductive MetricType where
  | METRIC_INNER_PRODUCT
  | METRIC_L2
  | METRIC_L1
  | METRIC_Linf
  | METRIC_Lp
  | METRIC_Jaccard
  | METRIC_Tanimoto
  | METRIC_Hamming
  | METRIC_Substructure
  | METRIC_Superstructure
  | METRIC_Canberra
  | METRIC_BrayCurtis
  | METRIC_JensenShannon
deriving DecidableEq, Repr

/-- `std::numeric_limits<float>::max()`, the sentinel worst distance used
by `SearchResultPair::advance`, as an exact rational. -/
def floatMax : ℚ := (2 ^ 24 - 1) * 2 ^ 104

/-- `milvus::SearchResult` from common/Types.h: a dense
`num_queries x topk` result matrix plus the auxiliary columns used by the
reduction (`result_offsets_`, `primary_keys_`). -/
structure SearchResult where
  num_queries_ : Nat
  topk_ : Nat
  distances_ : List ℚ
  ids_ : List Int
  result_offsets_ : List Int
  primary_keys_ : List Int
deriving Repr

/-- `SearchResult::get_row_count` from common/Types.h: `topk_ * num_queries_`. -/
def SearchResult.get_row_count (r : SearchResult) : Nat :=
  r.topk_ * r.num_queries_

/-- The `SearchResult(num_queries, topk)` constructor from common/Types.h:
stores the two parameters and resizes `distances_` and `ids_` to
`get_row_count()` (value-initialised elements). -/
def SearchResult.mk0 (num_queries topk : Nat) : SearchResult :=
  let count := topk * num_queries
  { num_queries_ := num_queries
  , topk_ := topk
  , distances_ := List.replicate count 0
  , ids_ := List.replicate count 0
  , result_offsets_ := []
  , primary_keys_ := [] }

/-- `engine::DataType` constructors used by common/FieldMeta.h. -/
inductive DataType where
  | NONE
  | BOOL
  | INT8
  | INT16
  | INT32
  | INT64
  | FLOAT
  | DOUBLE
  | STRING
  | VARCHAR
  | VECTOR_BINARY
  | VECTOR_FLOAT
deriving DecidableEq, Repr

/-- Outcomes of `datatype_sizeof` other than a normal return:
`Assert(dim % 8 == 0)` failing is a fatal assertion, the default case
throws `std::invalid_argument`. -/
inductive SizeofErr where
  | assertionFailure
  | invalidArgument
deriving DecidableEq, Repr

/-- `milvus::datatype_sizeof(DataType, int dim = 1)` from common/FieldMeta.h. -/
def datatype_sizeof (data_type : DataType) (dim : Nat := 1) : Except SizeofErr Nat :=
  match data_type with
  | DataType.BOOL => Except.ok 1
  | DataType.INT8 => Except.ok 1
  | DataType.INT16 => Except.ok 2
  | DataType.INT32 => Except.ok 4
  | DataType.INT64 => Except.ok 8
  | DataType.FLOAT => Except.ok 4
  | DataType.DOUBLE => Except.ok 8
  | DataType.VECTOR_FLOAT => Except.ok (4 * dim)
  | DataType.VECTOR_BINARY =>
      if dim % 8 = 0 then Except.ok (dim / 8) else Except.error SizeofErr.assertionFailure
  | _ => Except.error SizeofErr.invalidArgument

/-- `SearchResultPair` from segcore/ReduceStructure.h. The C++ struct holds
a pointer to the shard `SearchResult`; here it holds the value. -/
structure SearchResultPair where
  primary_key_ : PkType
  distance_ : ℚ
  search_result_ : SearchResult
  segment_index_ : Int
  offset_ : Int
  offset_rb_ : Int

/-- `SearchResultPair::operator>` from segcore/ReduceStructure.h:
`distance_ > other.distance_`, with no reference to any metric. -/
def SearchResultPair.gtPair (a b : SearchResultPair) : Bool :=
  a.distance_ > b.distance_

/-- `SearchResultPairComparator::operator()` from segcore/ReduceStructure.h:
`return *lhs > *rhs;`. -/
def SearchResultPairComparator (lhs rhs : SearchResultPair) : Bool :=
  lhs.gtPair rhs

/-- In a `std::priority_queue` whose strict comparator is
`SearchResultPairComparator`, element `a` is popped before element `b`
exactly when the comparator orders `b` above `a`; this is the
"ranked better" relation of the merge loop. -/
def comparatorRanksBetter (a b : SearchResultPair) : Bool :=
  SearchResultPairComparator b a

/-- `.at(i)` access on a modelled `std::vector`: ok within bounds, throws
`std::out_of_range` otherwise. -/
def vecAt {α : Type} (xs : List α) (i : Int) : Except Unit α :=
  if h : 0 ≤ i ∧ i.toNat < xs.length then Except.ok (xs.get ⟨i.toNat, h.2⟩)
  else Except.error ()

/-- `SearchResultPair::advance` from segcore/ReduceStructure.h:
increment `offset_`; while strictly below `offset_rb_` reload
`primary_key_` and `distance_` from the underlying result via `.at`,
otherwise install the `INVALID_PK` / float-max sentinel. -/
def SearchResultPair.advance (p : SearchResultPair) : Except Unit SearchResultPair :=
  let offset := p.offset_ + 1
  if offset < p.offset_rb_ then
    match vecAt p.search_result_.primary_keys_ offset, vecAt p.search_result_.distances_ offset with
    | Except.ok pk, Except.ok d =>
        Except.ok { p with offset_ := offset, primary_key_ := PkType.intPk pk, distance_ := d }
    | Except.error e, _ => Except.error e
    | _, Except.error e => Except.error e
  else
    Except.ok { p with offset_ := offset, primary_key_ := INVALID_PK, distance_ := floatMax }

/-- A merge cursor with a given distance and trivial other fields; used to
evaluate the comparator on concrete inputs. -/
def pairOfDistance (d : ℚ) : SearchResultPair :=
  { primary_key_ := PkType.intPk 0
  , distance_ := d
  , search_result_ := SearchResult.mk0 0 0
  , segment_index_ := 0
  , offset_ := 0
  , offset_rb_ := 0 }

/-- A concrete two-candidate shard cursor positioned at offset 0. -/
def pairA : SearchResultPair :=
  { primary_key_ := PkType.intPk 10
  , distance_ := 1
  , search_result_ :=
      { num_queries_ := 1, topk_ := 2, distances_ := [1, 2], ids_ := [10, 20]
      , result_offsets_ := [], primary_keys_ := [10, 20] }
  , segment_index_ := 0
  , offset_ := 0
  , offset_rb_ := 2 }

/-- `SealedIndexingEntry` from segcore/SealedIndexingRecord.h; the opaque
`knowhere::VecIndexPtr` is modelled as a numeric handle (the engine treats
the index purely as a black box). -/
structure SealedIndexingEntry where
  metric_type_ : MetricType
  indexing_ : Nat
deriving DecidableEq, Repr

/-- `SealedIndexingRecord` state from segcore/SealedIndexingRecord.h: the
`field_indexings_` map from field offset to entry. -/
def SealedIndexingRecord : Type := Int → Option SealedIndexingEntry

/-- The freshly constructed record: an empty `field_indexings_` map. -/
def emptyIndexingRecord : SealedIndexingRecord := fun _ => none

/-- `SealedIndexingRecord::append_field_indexing`: build an entry from the
metric type and index and store it at the field offset, overwriting any
previous entry (`field_indexings_[field_offset] = std::move(ptr)`). -/
def append_field_indexing (rec : SealedIndexingRecord) (field_offset : Int)
    (metric_type : MetricType) (indexing : Nat) : SealedIndexingRecord :=
  fun g => if g = field_offset then some ⟨metric_type, indexing⟩ else rec g

/-- `SealedIndexingRecord::drop_field_indexing`:
`field_indexings_.erase(field_offset)`. -/
def drop_field_indexing (rec : SealedIndexingRecord) (field_offset : Int) :
    SealedIndexingRecord :=
  fun g => if g = field_offset then none else rec g

/-- `SealedIndexingRecord::is_ready`: `field_indexings_.count(field_offset)`. -/
def is_ready (rec : SealedIndexingRecord) (field_offset : Int) : Bool :=
  (rec field_offset).isSome

/-- The failure of `AssertInfo(field_indexings_.count(field_offset),
"field_offset not found")` inside `get_field_indexing`. -/
inductive GetIndexingErr where
  | fieldOffsetNotFound
deriving DecidableEq, Repr

/-- `SealedIndexingRecord::get_field_indexing`: assert presence, then
return the stored entry. -/
def get_field_indexing (rec : SealedIndexingRecord) (field_offset : Int) :
    Except GetIndexingErr SealedIndexingEntry :=
  match rec field_offset with
  | some e => Except.ok e
  | none => Except.error GetIndexingErr.fieldOffsetNotFound

/-- An operation applied to a `SealedIndexingRecord` over its lifetime. -/
inductive RecOp where
  | appendOp (field_offset : Int) (metric_type : MetricType) (indexing : Nat)
  | dropOp (field_offset : Int)
deriving DecidableEq, Repr

/-- Apply one operation to the record state. -/
def applyRecOp (rec : SealedIndexingRecord) : RecOp → SealedIndexingRecord
  | RecOp.appendOp f m i => append_field_indexing rec f m i
  | RecOp.dropOp f => drop_field_indexing rec f

/-- The record state after a lifetime of operations, starting empty. -/
def applyRecOps (ops : List RecOp) : SealedIndexingRecord :=
  ops.foldl applyRecOp emptyIndexingRecord

/-- Some `append_field_indexing` for `f` occurred, with no later
`drop_field_indexing` for `f`. -/
def AppendedNotDropped (ops : List RecOp) (f : Int) : Prop :=
  ∃ l1 m i l2, ops = l1 ++ RecOp.appendOp f m i :: l2 ∧ RecOp.dropOp f ∉ l2

/-- Modelled from the spec: the sealed segment per-field raw-column table
behind `LoadFieldData` / `DropFieldData` (the `SegmentSealedImpl` sources
are not at hand); per the spec it is a field-offset-keyed map of columnar
blobs, loaded and dropped per field. -/
def RawDataRecord : Type := Int → Option (List ℚ)

/-- Modelled from the spec: `LoadFieldData` stores the supplied column for
the one field. -/
def load_field_data (rec : RawDataRecord) (field_offset : Int) (col : List ℚ) :
    RawDataRecord :=
  fun g => if g = field_offset then some col else rec g

/-- Modelled from the spec: `DropFieldData` removes the one field raw
column. -/
def drop_field_data (rec : RawDataRecord) (field_offset : Int) : RawDataRecord :=
  fun g => if g = field_offset then none else rec g

/-- Modelled from the spec: the loaded representations of a sealed
segment, an index table plus a raw-column table. -/
structure SealedSegmentState where
  vec_indexings_ : SealedIndexingRecord
  fields_data_ : RawDataRecord

/-- A field has some usable representation: an index or raw data. -/
def fieldHasRepr (st : SealedSegmentState) (f : Int) : Bool :=
  (st.vec_indexings_ f).isSome || (st.fields_data_ f).isSome

/-- The recoverable search error of spec section 4.3. -/
inductive SearchErr where
  | fieldNotLoaded
deriving DecidableEq, Repr

/-- Modelled from the spec: `SegmentSealedImpl::Search` (sources not at
hand) fails with a recoverable "field not loaded" error when some field
the plan touches has neither raw data nor an index loaded, and otherwise
answers from the loaded representations. -/
def searchSealed (st : SealedSegmentState) (touched : List Int) : Except SearchErr Unit :=
  if touched.all (fieldHasRepr st) then Except.ok () else Except.error SearchErr.fieldNotLoaded

/-- Modelled from the spec: `SegmentSealedImpl::LoadIndex` installs the
index entry for the one field. -/
def SealedSegmentState.loadIndex (st : SealedSegmentState) (f : Int)
    (m : MetricType) (i : Nat) : SealedSegmentState :=
  { st with vec_indexings_ := append_field_indexing st.vec_indexings_ f m i }

/-- Modelled from the spec: `SegmentSealedImpl::LoadFieldData` installs
the raw column for the one field. -/
def SealedSegmentState.loadFieldData (st : SealedSegmentState) (f : Int)
    (col : List ℚ) : SealedSegmentState :=
  { st with fields_data_ := load_field_data st.fields_data_ f col }

/-- A concrete sealed-segment state with one index entry at field 1. -/
def stW : SealedSegmentState :=
  { vec_indexings_ := fun g => if g = 1 then some ⟨MetricType.METRIC_L2, 7⟩ else none
  , fields_data_ := fun _ => none }

/-- A concrete sealed-segment state with nothing loaded. -/
def stEmpty : SealedSegmentState :=
  { vec_indexings_ := fun _ => none, fields_data_ := fun _ => none }

/-- Logical commit time (`uint64`), from common/Types.h. -/
abbrev Timestamp := Nat

/-- Modelled from the spec: the slice of `InsertRecord` read by the delete
bitmap (the definition of `get_deleted_bitmap` lives in segcore/Utils.cpp,
not under the sources at hand; segcore/Utils.h has its declaration): the
per-row commit timestamps and primary keys. -/
structure InsertRecordM where
  timestamps_ : List Timestamp
  pks_ : List Int

/-- Modelled from the spec: `DeletedRecord`, an append-only list of
(primary key, timestamp) delete tombstones. -/
structure DeletedRecordM where
  tombstones_ : List (Int × Timestamp)

/-- One tombstone applied to the invisibility function: every row whose
primary key equals the tombstone key becomes invisible when the tombstone
timestamp is at or before the query timestamp (so a delete wins a
timestamp tie with an insert). -/
def applyTombstone (query_timestamp : Timestamp) (pks : List Int)
    (bm : Nat → Bool) (tomb : Int × Timestamp) : Nat → Bool :=
  fun i => bm i || (decide (tomb.2 ≤ query_timestamp) && decide (pks.getD i 0 = tomb.1))

/-- Modelled from the spec:
`get_deleted_bitmap(del_barrier, insert_barrier, delete_record,
insert_record, query_timestamp)` produces a bitmap of length
`insert_barrier`; a bit starts set when its row is not yet committed at
the query timestamp, and each of the first `del_barrier` tombstones then
sets the bits of the rows its primary key resolves to, provided its
timestamp is at or before the query timestamp. -/
def get_deleted_bitmap (del_barrier insert_barrier : Nat)
    (delete_record : DeletedRecordM) (insert_record : InsertRecordM)
    (query_timestamp : Timestamp) : List Bool :=
  let base : Nat → Bool := fun i =>
    decide (query_timestamp < insert_record.timestamps_.getD i 0)
  let fn := (delete_record.tombstones_.take del_barrier).foldl
    (applyTombstone query_timestamp insert_record.pks_) base
  (List.range insert_barrier).map fn

/-- Modelled from the spec: `reserve(n)`, the body of `PreInsert` and
`PreDelete` (SegmentGrowingImpl is not under the sources at hand;
segcore/InsertRecord.h declares the `std::atomic<int64_t> reserved`
counter): fetch-and-add on the monotone counter, returning its previous
value as the window base together with the advanced counter. -/
def reserve (counter n : Nat) : Nat × Nat := (counter, counter + n)

/-- The counter value after a sequence of reservation sizes, from 0. -/
def reservedAfter (ns : List Nat) : Nat :=
  ns.foldl (fun c n => (reserve c n).2) 0

/-- The base offset returned by reservation number `i` of the sequence. -/
def reserveBaseAt (ns : List Nat) (i : Nat) : Nat :=
  (reserve (reservedAfter (ns.take i)) (ns.getD i 0)).1

/-- One candidate row of the per-query k-way merge: a primary key and a
metric-consistent ascending sort key. -/
structure Cand where
  pk : Int
  key : ℚ
deriving DecidableEq, Repr

/-- Metric-consistent ascending sort key of a score (spec section 4.4:
ordering is ascending distance for metrics where lower is better and
descending for the inner-product family, realised here by negating the
score so that smaller key always means better). -/
def scoreKey (lower_is_better : Bool) (score : ℚ) : ℚ :=
  if lower_is_better then score else -score

/-- The per-query candidate window of one shard result: entries
`[q * topk, (q+1) * topk)` of the primary-key and distance columns. -/
def queryCands (lower_is_better : Bool) (r : SearchResult) (q : Nat) : List Cand :=
  (List.range r.topk_).map fun k =>
    { pk := r.primary_keys_.getD (q * r.topk_ + k) 0
    , key := scoreKey lower_is_better (r.distances_.getD (q * r.topk_ + k) 0) }

/-- The current heads of the nonempty shard cursors, with shard index. -/
def headsWithIdx (shards : List (List Cand)) : List (Nat × Cand) :=
  shards.enum.filterMap fun p => p.2.head?.map fun c => (p.1, c)

/-- The best head of the merge heap: smallest key, earliest shard on
ties. -/
def pickBest : List (Nat × Cand) → Option (Nat × Cand)
  | [] => none
  | (i, c) :: rest =>
    match pickBest rest with
    | none => some (i, c)
    | some (j, d) => if d.key < c.key then some (j, d) else some (i, c)

/-- Total number of pending candidates across the shard cursors. -/
def totalSize (shards : List (List Cand)) : Nat :=
  (shards.map List.length).sum

/-- Modelled from the spec (section 4.4; `ReduceSearchResultsAndFillData`
is not under the sources at hand, only `SearchResultPair` and its tests):
the per-query k-way merge loop. Repeatedly pop the best head among the
shard cursors; emit the popped candidate unless its primary key was
already emitted for this query; advance the popped shard cursor; stop
once `K` results are emitted or every cursor is exhausted. `fuel` bounds
the number of pops; `totalSize shards` pops always suffice. -/
def mergeLoop : Nat → Nat → List Int → List Cand → List (List Cand) → List Cand
  | 0, _, _, acc, _ => acc
  | fuel + 1, K, seen, acc, shards =>
    if K ≤ acc.length then acc
    else
      match pickBest (headsWithIdx shards) with
      | none => acc
      | some (i, c) =>
        if c.pk ∈ seen then
          mergeLoop fuel K seen acc (shards.set i (shards.getD i []).tail)
        else
          mergeLoop fuel K (c.pk :: seen) (acc ++ [c])
            (shards.set i (shards.getD i []).tail)

/-- The reduced output of one query over the given shard windows. -/
def reduceQuery (K : Nat) (shards : List (List Cand)) : List Cand :=
  mergeLoop (totalSize shards) K [] [] shards

/-- The reduced output for query `q` over a batch of shard results. -/
def reducedForQuery (lower_is_better : Bool) (results : List SearchResult)
    (K q : Nat) : List Cand :=
  reduceQuery K (results.map fun r => queryCands lower_is_better r q)

/-- The union of all shard candidates for query `q`. -/
def allCandidates (lower_is_better : Bool) (results : List SearchResult)
    (q : Nat) : List Cand :=
  (results.map fun r => queryCands lower_is_better r q).flatten

/-- A concrete one-query shard result for evaluating the reduction. -/
def r1W : SearchResult :=
  { num_queries_ := 1, topk_ := 2, distances_ := [1, 3], ids_ := [10, 20]
  , result_offsets_ := [], primary_keys_ := [10, 20] }

/-- A second concrete shard result sharing primary key 10 with `r1W`. -/
def r2W : SearchResult :=
  { num_queries_ := 1, topk_ := 2, distances_ := [1, 4], ids_ := [10, 30]
  , result_offsets_ := [], primary_keys_ := [10, 30] }

/-! ## Theorems -/

/-- `pickBest` is `none` only on the empty head list. -/
theorem pickBest_eq_none (l : List (Nat × Cand)) :
    pickBest l = none ↔ l = [] := by
  cases l with
  | nil => simp [pickBest]
  | cons p rest =>
      obtain ⟨j, d⟩ := p
      simp only [pickBest]
      cases pickBest rest with
      | none => simp
      | some p2 =>
          obtain ⟨j2, d2⟩ := p2
          constructor
          · intro hcontra
            split at hcontra <;> (try split at hcontra) <;>
              exact Option.noConfusion hcontra
          · intro hcontra
            exact List.noConfusion hcontra

/-- `pickBest` returns an element of its input list. -/
theorem pickBest_mem (l : List (Nat × Cand)) (i : Nat) (c : Cand)
    (h : pickBest l = some (i, c)) : (i, c) ∈ l := by
  induction l generalizing i c with
  | nil => simp [pickBest] at h
  | cons p rest ih =>
      obtain ⟨j, d⟩ := p
      simp only [pickBest] at h
      split at h
      · simp only [Option.some.injEq, Prod.mk.injEq] at h
        obtain ⟨rfl, rfl⟩ := h
        exact List.mem_cons_self _ _
      · rename_i j1 d1 heq
        split at h
        · simp only [Option.some.injEq, Prod.mk.injEq] at h
          obtain ⟨rfl, rfl⟩ := h
          exact List.mem_cons_of_mem _ (ih _ _ heq)
        · simp only [Option.some.injEq, Prod.mk.injEq] at h
          obtain ⟨rfl, rfl⟩ := h
          exact List.mem_cons_self _ _

/-- `pickBest` returns a head with minimal key. -/
theorem pickBest_min (l : List (Nat × Cand)) (i : Nat) (c : Cand)
    (h : pickBest l = some (i, c)) : ∀ p ∈ l, c.key ≤ p.2.key := by
  induction l generalizing i c with
  | nil => simp [pickBest] at h
  | cons p rest ih =>
      obtain ⟨j, d⟩ := p
      simp only [pickBest] at h
      split at h
      · rename_i heq
        simp only [Option.some.injEq, Prod.mk.injEq] at h
        obtain ⟨rfl, rfl⟩ := h
        have hrest : rest = [] := (pickBest_eq_none rest).mp heq
        subst hrest
        intro p hp
        rcases List.mem_cons.mp hp with rfl | hp2
        · exact le_refl _
        · simp at hp2
      · rename_i j1 d1 heq
        split at h
        · rename_i hlt
          simp only [Option.some.injEq, Prod.mk.injEq] at h
          obtain ⟨rfl, rfl⟩ := h
          intro p hp
          rcases List.mem_cons.mp hp with rfl | hp2
          · exact le_of_lt hlt
          · exact ih _ _ heq p hp2
        · rename_i hlt
          simp only [Option.some.injEq, Prod.mk.injEq] at h
          obtain ⟨rfl, rfl⟩ := h
          intro p hp
          rcases List.mem_cons.mp hp with rfl | hp2
          · exact le_refl _
          · exact le_trans (not_lt.mp hlt) (ih _ _ heq p hp2)

/-- A head entry of `headsWithIdx` is exactly a nonempty shard cursor. -/
theorem headsWithIdx_mem (shards : List (List Cand)) (i : Nat) (c : Cand) :
    (i, c) ∈ headsWithIdx shards ↔ ∃ t, shards[i]? = some (c :: t) := by
  unfold headsWithIdx
  rw [List.mem_filterMap]
  constructor
  · rintro ⟨⟨j, s⟩, hmem, hmap⟩
    cases s with
    | nil => simp at hmap
    | cons d t =>
        simp only [List.head?_cons, Option.map_some] at hmap
        obtain ⟨rfl, rfl⟩ := Prod.mk.injEq .. ▸ (Option.some.injEq _ _ ▸ hmap :
          (j, d) = (i, c))
        exact ⟨t, List.mk_mem_enum_iff_getElem?.mp hmem⟩
  · rintro ⟨t, ht⟩
    exact ⟨(i, c :: t), List.mk_mem_enum_iff_getElem?.mpr ht, by simp⟩

/-- If the head list is empty, every shard cursor is exhausted. -/
theorem headsWithIdx_eq_nil (shards : List (List Cand))
    (h : headsWithIdx shards = []) : ∀ s ∈ shards, s = [] := by
  intro s hs
  cases s with
  | nil => rfl
  | cons c t =>
      obtain ⟨i, hi, hv⟩ := List.getElem_of_mem hs
      have hmem : (i, c) ∈ headsWithIdx shards := by
        rw [headsWithIdx_mem]
        exact ⟨t, by rw [List.getElem?_eq_getElem hi, hv]⟩
      rw [h] at hmem
      simp at hmem

/-- Popping the head of one shard cursor frees exactly one candidate. -/
theorem totalSize_set_tail (shards : List (List Cand)) (i : Nat) (c : Cand)
    (t : List Cand) (h : shards[i]? = some (c :: t)) :
    totalSize (shards.set i t) + 1 = totalSize shards := by
  induction shards generalizing i with
  | nil => simp at h
  | cons s rest ih =>
      cases i with
      | zero =>
          simp only [List.getElem?_cons_zero, Option.some.injEq] at h
          subst h
          simp [totalSize]
          omega
      | succ i =>
          simp only [List.getElem?_cons_succ] at h
          have := ih i h
          simp only [totalSize, List.set, List.map_cons, List.sum_cons] at this ⊢
          omega

/-- Restoring a popped head: the original shard list is the popped one
with the full cursor put back. -/
theorem set_restore (shards : List (List Cand)) (i : Nat) (c : Cand)
    (t : List Cand) (h : shards[i]? = some (c :: t)) :
    shards = (shards.set i t).set i (c :: t) := by
  obtain ⟨hi, hv⟩ := List.getElem?_eq_some_iff.mp h
  rw [List.set_set, ← hv]
  apply List.ext_getElem?
  intro j
  by_cases hj : j = i
  · subst hj
    rw [List.getElem?_set_self hi, List.getElem?_eq_getElem hi]
  · rw [List.getElem?_set_ne (fun hc => hj hc.symm)]

/-- Membership transfer between the pending candidates before and after
one pop. -/
theorem flatten_set_pop (shards : List (List Cand)) (i : Nat) (c : Cand)
    (t : List Cand) (h : shards[i]? = some (c :: t)) :
    (∀ x ∈ (shards.set i t).flatten, x ∈ shards.flatten) ∧
    (∀ x ∈ shards.flatten, x = c ∨ x ∈ (shards.set i t).flatten) := by
  obtain ⟨hi, hv⟩ := List.getElem?_eq_some_iff.mp h
  constructor
  · intro x hx
    rw [List.mem_flatten] at hx ⊢
    obtain ⟨s, hs, hxs⟩ := hx
    rcases List.mem_or_eq_of_mem_set hs with hs2 | heq
    · exact ⟨s, hs2, hxs⟩
    · exact ⟨c :: t, hv ▸ List.getElem_mem hi, List.mem_cons_of_mem c (heq ▸ hxs)⟩
  · intro x hx
    rw [List.mem_flatten] at hx
    obtain ⟨s, hs, hxs⟩ := hx
    rw [set_restore shards i c t h] at hs
    rcases List.mem_or_eq_of_mem_set hs with hs2 | rfl
    · right
      rw [List.mem_flatten]
      exact ⟨s, hs2, hxs⟩
    · rcases List.mem_cons.mp hxs with rfl | hxt
      · exact Or.inl rfl
      · right
        rw [List.mem_flatten]
        have h2 : (shards.set i t)[i]? = some t := by
          simp [List.getElem?_set_self, hi]
        obtain ⟨hlt, hval⟩ := List.getElem?_eq_some_iff.mp h2
        have hmem2 : t ∈ shards.set i t := by
          have h3 := List.getElem_mem hlt
          rwa [hval] at h3
        exact ⟨t, hmem2, hxt⟩

/-- Sortedness of the shard cursors survives one pop. -/
theorem sorted_set_pop (shards : List (List Cand)) (i : Nat) (c : Cand)
    (t : List Cand) (h : shards[i]? = some (c :: t))
    (hs : ∀ s ∈ shards, s.Pairwise fun a b => a.key ≤ b.key) :
    ∀ s ∈ shards.set i t, s.Pairwise fun a b => a.key ≤ b.key := by
  intro s hmem
  rcases List.mem_or_eq_of_mem_set hmem with h2 | heq
  · exact hs s h2
  · obtain ⟨hi, hv⟩ := List.getElem?_eq_some_iff.mp h
    have hp := hs (c :: t) (hv ▸ List.getElem_mem hi)
    rw [heq]
    exact (List.pairwise_cons.mp hp).2

/-- The popped best head has minimal key among all pending candidates. -/
theorem pickBest_global_min (shards : List (List Cand)) (i : Nat) (c : Cand)
    (hpb : pickBest (headsWithIdx shards) = some (i, c))
    (hs : ∀ s ∈ shards, s.Pairwise fun a b => a.key ≤ b.key) :
    ∀ x ∈ shards.flatten, c.key ≤ x.key := by
  intro x hx
  rw [List.mem_flatten] at hx
  obtain ⟨s, hmem, hxs⟩ := hx
  cases s with
  | nil => simp at hxs
  | cons d t =>
      obtain ⟨j, hj, hv⟩ := List.getElem_of_mem hmem
      have hhead : (j, d) ∈ headsWithIdx shards := by
        rw [headsWithIdx_mem]
        exact ⟨t, by rw [List.getElem?_eq_getElem hj, hv]⟩
      have h1 : c.key ≤ d.key := pickBest_min _ _ _ hpb (j, d) hhead
      rcases List.mem_cons.mp hxs with rfl | hxt
      · exact h1
      · exact le_trans h1 ((List.pairwise_cons.mp (hs _ hmem)).1 x hxt)

/-- The popped best head is the head of its shard cursor. -/
theorem pickBest_shard (shards : List (List Cand)) (i : Nat) (c : Cand)
    (hpb : pickBest (headsWithIdx shards) = some (i, c)) :
    ∃ t, shards[i]? = some (c :: t) :=
  (headsWithIdx_mem shards i c).mp (pickBest_mem _ _ _ hpb)

/-- Unrolling the tombstone fold: a bit is set when it was set initially
or some tombstone of the list covers the row. -/
theorem foldl_applyTombstone_char (qts : Timestamp) (pks : List Int)
    (ts : List (Int × Timestamp)) (init : Nat → Bool) (i : Nat) :
    (ts.foldl (applyTombstone qts pks) init) i
      = (init i ||
          ts.any fun t => decide (t.2 ≤ qts) && decide (pks.getD i 0 = t.1)) := by
  induction ts generalizing init with
  | nil => simp
  | cons t ts ih => simp [applyTombstone, ih, Bool.or_assoc]

/-- Reserving in sequence accumulates the sum of the sizes. -/
theorem foldl_reserve_eq (ns : List Nat) (c : Nat) :
    ns.foldl (fun acc n => (reserve acc n).2) c = c + ns.sum := by
  induction ns generalizing c with
  | nil => simp
  | cons n ns ih =>
      rw [List.foldl_cons, ih, List.sum_cons]
      simp [reserve, Nat.add_assoc]

/-- Prefix sums of a Nat list are monotone. -/
theorem sum_take_mono (ns : List Nat) (a b : Nat) (hab : a ≤ b) :
    (ns.take a).sum ≤ (ns.take b).sum := by
  have h1 : ns.take a = (ns.take b).take a := by
    rw [List.take_take, Nat.min_eq_left hab]
  rw [h1]
  conv_rhs => rw [← List.take_append_drop a (ns.take b)]
  rw [List.sum_append]
  exact Nat.le_add_right _ _

/-- One more prefix element adds that element to the prefix sum. -/
theorem sum_take_succ_of_lt (ns : List Nat) (i : Nat) (hi : i < ns.length) :
    (ns.take (i + 1)).sum = (ns.take i).sum + ns.getD i 0 := by
  rw [List.take_succ, List.sum_append]
  congr 1
  rw [List.getD_eq_getElem?_getD, List.getElem?_eq_getElem hi]
  simp

/-- Claim C2: the delete bitmap has length `insert_barrier` and bit `i`
is set exactly when row `i` is invisible at the query timestamp: its
insert timestamp exceeds the query timestamp, or a tombstone among the
first `del_barrier` has timestamp at or before the query timestamp and
carries the primary key of row `i`; in particular a delete and an insert
with an identical timestamp resolve with the delete winning, so a row
deleted at `T` is already invisible when queried at exactly `T`. -/
theorem get_deleted_bitmap_spec (del_barrier insert_barrier : Nat)
    (delete_record : DeletedRecordM) (insert_record : InsertRecordM)
    (query_timestamp : Timestamp) :
    (get_deleted_bitmap del_barrier insert_barrier delete_record insert_record
        query_timestamp).length = insert_barrier ∧
    (∀ i, i < insert_barrier →
      ((get_deleted_bitmap del_barrier insert_barrier delete_record insert_record
          query_timestamp).getD i false = true ↔
        (query_timestamp < insert_record.timestamps_.getD i 0 ∨
          ∃ t ∈ delete_record.tombstones_.take del_barrier,
            t.2 ≤ query_timestamp ∧ insert_record.pks_.getD i 0 = t.1))) ∧
    (∀ i T, i < insert_barrier →
      (insert_record.pks_.getD i 0, T) ∈ delete_record.tombstones_.take del_barrier →
      (get_deleted_bitmap del_barrier insert_barrier delete_record insert_record
          T).getD i false = true) := by
  have hget : ∀ (qts : Timestamp) (i : Nat), i < insert_barrier →
      (get_deleted_bitmap del_barrier insert_barrier delete_record insert_record
        qts).getD i false
      = ((delete_record.tombstones_.take del_barrier).foldl
          (applyTombstone qts insert_record.pks_)
          (fun j => decide (qts < insert_record.timestamps_.getD j 0))) i := by
    intro qts i hi
    unfold get_deleted_bitmap
    rw [List.getD_eq_getElem?_getD, List.getElem?_map, List.getElem?_range hi]
    simp
  have hiff : ∀ (qts : Timestamp) (i : Nat), i < insert_barrier →
      ((get_deleted_bitmap del_barrier insert_barrier delete_record insert_record
          qts).getD i false = true ↔
        (qts < insert_record.timestamps_.getD i 0 ∨
          ∃ t ∈ delete_record.tombstones_.take del_barrier,
            t.2 ≤ qts ∧ insert_record.pks_.getD i 0 = t.1)) := by
    intro qts i hi
    rw [hget qts i hi, foldl_applyTombstone_char]
    simp [List.any_eq_true]
  refine ⟨?_, hiff query_timestamp, ?_⟩
  · unfold get_deleted_bitmap
    simp
  · intro i T hi hmem
    exact (hiff T i hi).mpr
      (Or.inr ⟨(insert_record.pks_.getD i 0, T), hmem, le_refl T, rfl⟩)

/-- Witness for C2: three rows with primary keys 1, 2, 3 committed at
timestamp 5; primary key 2 deleted at timestamp 10. Queried at exactly 10
the row is invisible (delete wins the tie), queried at 9 it is visible. -/
theorem get_deleted_bitmap_spec_witness :
    (get_deleted_bitmap 1 3 ⟨[(2, 10)]⟩ ⟨[5, 5, 5], [1, 2, 3]⟩ 10).getD 1 false = true ∧
    (get_deleted_bitmap 1 3 ⟨[(2, 10)]⟩ ⟨[5, 5, 5], [1, 2, 3]⟩ 9).getD 1 false = false :=
  ⟨(get_deleted_bitmap_spec 1 3 ⟨[(2, 10)]⟩ ⟨[5, 5, 5], [1, 2, 3]⟩ 10).2.2 1 10
      (by decide) (by decide),
   by decide⟩

/-- Claim C3: every reservation atomically adds its size to the monotone
counter and returns the previous counter value as its window base; the
windows of two distinct reservations never overlap; and after `k` rows
reserved in total, the next reservation returns exactly `k`. -/
theorem reservation_windows_disjoint (ns : List Nat) (i j n : Nat)
    (hij : i < j) (hj : j < ns.length) :
    (∀ c m, reserve c m = (c, c + m)) ∧
    reserveBaseAt ns i + ns.getD i 0 ≤ reserveBaseAt ns j ∧
    (∀ x, ¬ (reserveBaseAt ns i ≤ x ∧ x < reserveBaseAt ns i + ns.getD i 0 ∧
             reserveBaseAt ns j ≤ x ∧ x < reserveBaseAt ns j + ns.getD j 0)) ∧
    (reserve (reservedAfter ns) n).1 = ns.sum := by
  have hbase : ∀ k, reserveBaseAt ns k = (ns.take k).sum := by
    intro k
    unfold reserveBaseAt reservedAfter reserve
    simpa using foldl_reserve_eq (ns.take k) 0
  have hsep : reserveBaseAt ns i + ns.getD i 0 ≤ reserveBaseAt ns j := by
    rw [hbase i, hbase j]
    rw [← sum_take_succ_of_lt ns i (lt_trans hij hj)]
    exact sum_take_mono ns (i + 1) j hij
  refine ⟨fun c m => rfl, hsep, ?_, ?_⟩
  · intro x hx
    obtain ⟨h1, h2, h3, h4⟩ := hx
    omega
  · unfold reserve reservedAfter
    simpa using foldl_reserve_eq ns 0

/-- Witness for C3 with reservations of 100 and 50 rows: the windows
[0, 100) and [100, 150) are disjoint and the next reservation returns
offset 150. -/
theorem reservation_windows_disjoint_witness :
    reserveBaseAt [100, 50] 0 + 100 ≤ reserveBaseAt [100, 50] 1 ∧
    (reserve (reservedAfter [100, 50]) 3).1 = 150 :=
  ⟨(reservation_windows_disjoint [100, 50] 0 1 3 (by decide) (by decide)).2.1,
   (reservation_windows_disjoint [100, 50] 0 1 3 (by decide) (by decide)).2.2.2⟩

/-- Snoc characterisation of `AppendedNotDropped`: appending one more
operation either is itself an append of the field, or preserves the
property exactly when it is not a drop of the field. -/
theorem appendedNotDropped_snoc (ops : List RecOp) (op : RecOp) (f : Int) :
    AppendedNotDropped (ops ++ [op]) f ↔
      ((∃ m i, op = RecOp.appendOp f m i) ∨
        (AppendedNotDropped ops f ∧ op ≠ RecOp.dropOp f)) := by
  constructor
  · rintro ⟨l1, m, i, l2, heq, hnd⟩
    rcases l2.eq_nil_or_concat with h2 | ⟨l2x, y, h2⟩
    · subst h2
      have hlen : ops.length = l1.length := by
        have := congrArg List.length heq
        simpa using this
      obtain ⟨h3, h4⟩ := List.append_inj heq hlen
      have : op = RecOp.appendOp f m i := by simpa using h4
      exact Or.inl ⟨m, i, this⟩
    · subst h2
      have heq2 : ops ++ [op] = (l1 ++ RecOp.appendOp f m i :: l2x) ++ [y] := by
        simpa using heq
      have hlen : ops.length = (l1 ++ RecOp.appendOp f m i :: l2x).length := by
        have := congrArg List.length heq2
        simp only [List.length_append, List.length_cons, List.length_singleton] at this ⊢
        omega
      obtain ⟨h3, h4⟩ := List.append_inj heq2 hlen
      have hopy : op = y := by simpa using h4
      subst hopy
      refine Or.inr ⟨⟨l1, m, i, l2x, h3, ?_⟩, ?_⟩
      · intro hmem
        exact hnd (by simp [hmem])
      · intro hop
        exact hnd (by simp [hop])
  · rintro (⟨m, i, rfl⟩ | ⟨⟨l1, m, i, l2, rfl, hnd⟩, hne⟩)
    · exact ⟨ops, m, i, [], by simp, by simp⟩
    · refine ⟨l1, m, i, l2 ++ [op], by simp, ?_⟩
      intro hmem
      rcases List.mem_append.mp hmem with h | h
      · exact hnd h
      · simp only [List.mem_singleton] at h
        exact hne h.symm

/-- `is_ready` after a lifetime of operations holds exactly when some
append of the field has no later drop of it. -/
theorem is_ready_applyRecOps (ops : List RecOp) (f : Int) :
    is_ready (applyRecOps ops) f = true ↔ AppendedNotDropped ops f := by
  induction ops using List.reverseRecOn with
  | nil =>
      simp only [applyRecOps, List.foldl_nil, is_ready, emptyIndexingRecord,
        Option.isSome_none, Bool.false_eq_true, false_iff]
      rintro ⟨l1, m, i, l2, heq, -⟩
      cases l1 <;> simp at heq
  | append_singleton ops op ih =>
      have happ : applyRecOps (ops ++ [op]) = applyRecOp (applyRecOps ops) op := by
        simp [applyRecOps, List.foldl_append]
      rw [happ, appendedNotDropped_snoc]
      cases op with
      | appendOp g m i =>
          by_cases hfg : f = g
          · subst hfg
            simp [applyRecOp, append_field_indexing, is_ready]
          · simp only [applyRecOp, is_ready, append_field_indexing, if_neg hfg]
            rw [← is_ready]
            rw [ih]
            constructor
            · intro hready
              exact Or.inr ⟨hready, fun hc => RecOp.noConfusion hc⟩
            · rintro (⟨m2, i2, hcontra⟩ | ⟨hready, -⟩)
              · injection hcontra with h1 h2 h3
                exact absurd h1.symm hfg
              · exact hready
      | dropOp g =>
          by_cases hfg : f = g
          · subst hfg
            simp [applyRecOp, drop_field_indexing, is_ready]
          · simp only [applyRecOp, is_ready, drop_field_indexing, if_neg hfg]
            rw [← is_ready]
            rw [ih]
            constructor
            · intro hready
              refine Or.inr ⟨hready, fun hc => ?_⟩
              injection hc with h1
              exact hfg h1.symm
            · rintro (⟨m2, i2, hcontra⟩ | ⟨hready, -⟩)
              · exact RecOp.noConfusion hcontra
              · exact hready

/-- Claim C10: `is_ready` holds exactly when an `append_field_indexing`
for the field occurred with no later `drop_field_indexing` for it;
`get_field_indexing` on a non-ready field is the fatal
"field_offset not found" assertion while on a ready field it returns an
entry; and `append_field_indexing` on an already present field replaces
its entry with the new one. -/
theorem sealedIndexingRecord_lifecycle (ops : List RecOp) (rec : SealedIndexingRecord) (f : Int) :
    (is_ready (applyRecOps ops) f = true ↔ AppendedNotDropped ops f) ∧
    (is_ready rec f = false →
      get_field_indexing rec f = Except.error GetIndexingErr.fieldOffsetNotFound) ∧
    (is_ready rec f = true → ∃ e, get_field_indexing rec f = Except.ok e) ∧
    (∀ m i, get_field_indexing (append_field_indexing rec f m i) f = Except.ok ⟨m, i⟩) := by
  refine ⟨is_ready_applyRecOps ops f, ?_, ?_, ?_⟩
  · intro h
    unfold is_ready at h
    unfold get_field_indexing
    cases hrec : rec f with
    | some e => rw [hrec] at h; simp at h
    | none => rfl
  · intro h
    unfold is_ready at h
    unfold get_field_indexing
    cases hrec : rec f with
    | some e => exact ⟨e, rfl⟩
    | none => rw [hrec] at h; simp at h
  · intro m i
    simp [get_field_indexing, append_field_indexing]

/-- Witness for C10: after an append of field 5 followed by a drop of
field 3, field 5 is ready; on the empty record, the field lookup is the
fatal assertion; an append on a present field overwrites the entry. -/
theorem sealedIndexingRecord_lifecycle_witness :
    is_ready (applyRecOps [RecOp.appendOp 5 MetricType.METRIC_L2 7, RecOp.dropOp 3]) 5 = true ∧
    get_field_indexing emptyIndexingRecord 9 = Except.error GetIndexingErr.fieldOffsetNotFound ∧
    get_field_indexing (append_field_indexing stW.vec_indexings_ 1 MetricType.METRIC_INNER_PRODUCT 8) 1
      = Except.ok ⟨MetricType.METRIC_INNER_PRODUCT, 8⟩ :=
  ⟨(sealedIndexingRecord_lifecycle [RecOp.appendOp 5 MetricType.METRIC_L2 7, RecOp.dropOp 3]
        emptyIndexingRecord 5).1.mpr
      ⟨[], MetricType.METRIC_L2, 7, [RecOp.dropOp 3], rfl, by decide⟩,
   (sealedIndexingRecord_lifecycle [] emptyIndexingRecord 9).2.1 rfl,
   (sealedIndexingRecord_lifecycle [] stW.vec_indexings_ 1).2.2.2
      MetricType.METRIC_INNER_PRODUCT 8⟩

/-- Claim C7: on a sealed segment, dropping a field index and reloading
the same entry restores the exact loaded state, so any search function of
that state gives identical results before and after; and dropping or
loading one field (index or raw data) leaves every other field unchanged. -/
theorem sealed_drop_load_roundtrip (st : SealedSegmentState) (f : Int)
    (e : SealedIndexingEntry) (h : st.vec_indexings_ f = some e) :
    (append_field_indexing (drop_field_indexing st.vec_indexings_ f) f
        e.metric_type_ e.indexing_ = st.vec_indexings_) ∧
    (∀ (α : Type) (searchFn : SealedSegmentState → α),
      searchFn { st with vec_indexings_ :=
          (append_field_indexing (drop_field_indexing st.vec_indexings_ f) f
            e.metric_type_ e.indexing_) }
        = searchFn st) ∧
    (∀ g, g ≠ f →
      drop_field_indexing st.vec_indexings_ f g = st.vec_indexings_ g ∧
      (∀ m i, append_field_indexing st.vec_indexings_ f m i g = st.vec_indexings_ g) ∧
      drop_field_data st.fields_data_ f g = st.fields_data_ g ∧
      (∀ col, load_field_data st.fields_data_ f col g = st.fields_data_ g)) := by
  have hrt : append_field_indexing (drop_field_indexing st.vec_indexings_ f) f
      e.metric_type_ e.indexing_ = st.vec_indexings_ := by
    funext g
    by_cases hg : g = f
    · subst hg
      simp [append_field_indexing, h]
    · simp [append_field_indexing, drop_field_indexing, hg]
  refine ⟨hrt, ?_, ?_⟩
  · intro α searchFn
    rw [hrt]
  · intro g hg
    refine ⟨?_, ?_, ?_, ?_⟩ <;>
      simp [drop_field_indexing, append_field_indexing, drop_field_data, load_field_data, hg]

/-- Witness for C7 on a concrete one-field state. -/
theorem sealed_drop_load_roundtrip_witness :
    (append_field_indexing (drop_field_indexing stW.vec_indexings_ 1) 1
        MetricType.METRIC_L2 7 = stW.vec_indexings_) ∧
    drop_field_indexing stW.vec_indexings_ 1 2 = stW.vec_indexings_ 2 :=
  ⟨(sealed_drop_load_roundtrip stW 1 ⟨MetricType.METRIC_L2, 7⟩ rfl).1,
   ((sealed_drop_load_roundtrip stW 1 ⟨MetricType.METRIC_L2, 7⟩ rfl).2.2 2 (by decide)).1⟩

/-- Claim C6: a sealed-segment search touching a field with neither raw
data nor an index loaded fails with the recoverable "field not loaded"
error, and the same search succeeds once every touched field has a
representation; `LoadIndex` and `LoadFieldData` each supply one. -/
theorem sealed_search_not_loaded (st : SealedSegmentState) (touched : List Int) :
    (∀ f ∈ touched, st.vec_indexings_ f = none → st.fields_data_ f = none →
      searchSealed st touched = Except.error SearchErr.fieldNotLoaded) ∧
    ((∀ f ∈ touched, fieldHasRepr st f = true) → searchSealed st touched = Except.ok ()) ∧
    (∀ f m i, fieldHasRepr (st.loadIndex f m i) f = true) ∧
    (∀ f col, fieldHasRepr (st.loadFieldData f col) f = true) := by
  refine ⟨?_, ?_, ?_, ?_⟩
  · intro f hf h1 h2
    unfold searchSealed
    rw [if_neg]
    intro hall
    have := List.all_eq_true.mp hall f hf
    rw [fieldHasRepr, h1, h2] at this
    simp at this
  · intro hall
    unfold searchSealed
    rw [if_pos (List.all_eq_true.mpr hall)]
  · intro f m i
    simp [fieldHasRepr, SealedSegmentState.loadIndex, append_field_indexing]
  · intro f col
    simp [fieldHasRepr, SealedSegmentState.loadFieldData, load_field_data]

/-- Witness for C6: with nothing loaded, searching the plan touching
field 1 is the "field not loaded" error; after `LoadIndex` on field 1 the
same search succeeds. -/
theorem sealed_search_not_loaded_witness :
    searchSealed stEmpty [1] = Except.error SearchErr.fieldNotLoaded ∧
    searchSealed (stEmpty.loadIndex 1 MetricType.METRIC_L2 7) [1] = Except.ok () :=
  ⟨(sealed_search_not_loaded stEmpty [1]).1 1 (by decide) rfl rfl,
   (sealed_search_not_loaded (stEmpty.loadIndex 1 MetricType.METRIC_L2 7) [1]).2.1
      (by decide)⟩

/-- The merge-loop invariant: starting from sorted shard cursors, an
emitted prefix that dominates every pending candidate, and a seen set
mirroring the emitted primary keys, the loop output extends the prefix
with candidates drawn from the cursors, keeps primary keys distinct and
keys sorted, never exceeds `K` entries, dominates every pending candidate
whose primary key it does not contain, and falls short of `K` only when
it contains every pending primary key. -/
theorem mergeLoop_spec (fuel : Nat) :
    ∀ (K : Nat) (seen : List Int) (acc : List Cand) (shards : List (List Cand)),
    totalSize shards ≤ fuel →
    (∀ s ∈ shards, s.Pairwise fun a b => a.key ≤ b.key) →
    (∀ x, x ∈ seen ↔ x ∈ acc.map Cand.pk) →
    (acc.map Cand.pk).Nodup →
    (∀ e ∈ acc, ∀ x ∈ shards.flatten, e.key ≤ x.key) →
    acc.Pairwise (fun a b => a.key ≤ b.key) →
    acc.length ≤ K →
    (∃ t2, mergeLoop fuel K seen acc shards = acc ++ t2 ∧
        ∀ e ∈ t2, e ∈ shards.flatten) ∧
    ((mergeLoop fuel K seen acc shards).map Cand.pk).Nodup ∧
    (mergeLoop fuel K seen acc shards).length ≤ K ∧
    (mergeLoop fuel K seen acc shards).Pairwise (fun a b => a.key ≤ b.key) ∧
    (∀ c ∈ shards.flatten,
      c.pk ∉ (mergeLoop fuel K seen acc shards).map Cand.pk →
      ∀ e ∈ mergeLoop fuel K seen acc shards, e.key ≤ c.key) ∧
    ((mergeLoop fuel K seen acc shards).length < K →
      ∀ c ∈ shards.flatten,
        c.pk ∈ (mergeLoop fuel K seen acc shards).map Cand.pk) := by
  induction fuel with
  | zero =>
      intro K seen acc shards hfuel hsorted hseen hnd hdom hpair hlen
      have hflat : shards.flatten = [] := by
        rw [List.eq_nil_iff_forall_not_mem]
        intro x hx
        rw [List.mem_flatten] at hx
        obtain ⟨s, hs, hxs⟩ := hx
        have hzero : s.length = 0 := by
          have hsum : (shards.map List.length).sum = 0 := Nat.le_zero.mp hfuel
          exact List.sum_eq_zero_iff.mp hsum _ (List.mem_map_of_mem _ hs)
        rw [List.length_eq_zero.mp hzero] at hxs
        simp at hxs
      have hres : mergeLoop 0 K seen acc shards = acc := rfl
      rw [hres, hflat]
      exact ⟨⟨[], by simp, by simp⟩, hnd, hlen, hpair, by simp, by simp⟩
  | succ fuel ih =>
      intro K seen acc shards hfuel hsorted hseen hnd hdom hpair hlen
      by_cases hK : K ≤ acc.length
      · have hres : mergeLoop (fuel + 1) K seen acc shards = acc := by
          simp [mergeLoop, hK]
        rw [hres]
        have hlenK : acc.length = K := le_antisymm hlen hK
        refine ⟨⟨[], by simp, by simp⟩, hnd, hlen, hpair, ?_, ?_⟩
        · intro c hc _ e he
          exact hdom e he c hc
        · intro hlt
          omega
      · cases hpb : pickBest (headsWithIdx shards) with
        | none =>
            have hres : mergeLoop (fuel + 1) K seen acc shards = acc := by
              simp [mergeLoop, hK, hpb]
            have hflat : shards.flatten = [] := by
              rw [List.eq_nil_iff_forall_not_mem]
              intro x hx
              rw [List.mem_flatten] at hx
              obtain ⟨s, hs, hxs⟩ := hx
              rw [headsWithIdx_eq_nil shards ((pickBest_eq_none _).mp hpb) s hs] at hxs
              simp at hxs
            rw [hres, hflat]
            exact ⟨⟨[], by simp, by simp⟩, hnd, hlen, hpair, by simp, by simp⟩
        | some ic =>
            obtain ⟨i, c⟩ := ic
            obtain ⟨t, hshard⟩ := pickBest_shard shards i c hpb
            have htail : (shards.getD i []).tail = t := by
              rw [List.getD_eq_getElem?_getD, hshard]
              rfl
            have hfuel2 : totalSize (shards.set i t) ≤ fuel := by
              have := totalSize_set_tail shards i c t hshard
              omega
            have hsorted2 := sorted_set_pop shards i c t hshard hsorted
            obtain ⟨hsub, hsplit⟩ := flatten_set_pop shards i c t hshard
            have hcmem : c ∈ shards.flatten := by
              rw [List.mem_flatten]
              obtain ⟨hi, hv⟩ := List.getElem?_eq_some_iff.mp hshard
              exact ⟨c :: t, hv ▸ List.getElem_mem hi, List.mem_cons_self _ _⟩
            have hminall := pickBest_global_min shards i c hpb hsorted
            by_cases hcseen : c.pk ∈ seen
            · have hres : mergeLoop (fuel + 1) K seen acc shards
                  = mergeLoop fuel K seen acc (shards.set i t) := by
                simp only [mergeLoop, hpb, htail]
                rw [if_neg hK, if_pos hcseen]
              have hdom2 : ∀ e ∈ acc, ∀ x ∈ (shards.set i t).flatten, e.key ≤ x.key :=
                fun e he x hx => hdom e he x (hsub x hx)
              obtain ⟨R0, R1, R2, R3, R4, R5⟩ :=
                ih K seen acc (shards.set i t) hfuel2 hsorted2 hseen hnd hdom2 hpair hlen
              rw [hres]
              refine ⟨?_, R1, R2, R3, ?_, ?_⟩
              · obtain ⟨t2, ht2, ht2m⟩ := R0
                exact ⟨t2, ht2, fun e he => hsub e (ht2m e he)⟩
              · intro x hx hpk e he
                rcases hsplit x hx with heq | hx2
                · exfalso
                  apply hpk
                  obtain ⟨t2, ht2, -⟩ := R0
                  rw [ht2, List.map_append]
                  exact List.mem_append_left _ (heq ▸ (hseen c.pk).mp hcseen)
                · exact R4 x hx2 hpk e he
              · intro hlt x hx
                rcases hsplit x hx with heq | hx2
                · obtain ⟨t2, ht2, -⟩ := R0
                  rw [ht2, List.map_append]
                  exact List.mem_append_left _ (heq ▸ (hseen c.pk).mp hcseen)
                · exact R5 hlt x hx2
            · have hres : mergeLoop (fuel + 1) K seen acc shards
                  = mergeLoop fuel K (c.pk :: seen) (acc ++ [c]) (shards.set i t) := by
                simp only [mergeLoop, hpb, htail]
                rw [if_neg hK, if_neg hcseen]
              have hcnot : c.pk ∉ acc.map Cand.pk := fun hc => hcseen ((hseen c.pk).mpr hc)
              have hseen2 : ∀ x, x ∈ c.pk :: seen ↔ x ∈ (acc ++ [c]).map Cand.pk := by
                intro x
                rw [List.mem_cons, hseen x, List.map_append]
                simp [or_comm]
              have hnd2 : ((acc ++ [c]).map Cand.pk).Nodup := by
                rw [List.map_append, List.nodup_append]
                exact ⟨hnd, by simp, by simpa using fun hc => hcnot hc⟩
              have hdom2 : ∀ e ∈ acc ++ [c], ∀ x ∈ (shards.set i t).flatten,
                  e.key ≤ x.key := by
                intro e he x hx
                rcases List.mem_append.mp he with he2 | he2
                · exact hdom e he2 x (hsub x hx)
                · rw [List.mem_singleton.mp he2]
                  exact hminall x (hsub x hx)
              have hpair2 : (acc ++ [c]).Pairwise (fun a b => a.key ≤ b.key) := by
                rw [List.pairwise_append]
                refine ⟨hpair, by simp, ?_⟩
                intro a ha b hb
                rw [List.mem_singleton.mp hb]
                exact hdom a ha c hcmem
              have hlen2 : (acc ++ [c]).length ≤ K := by
                rw [List.length_append, List.length_singleton]
                omega
              obtain ⟨R0, R1, R2, R3, R4, R5⟩ :=
                ih K (c.pk :: seen) (acc ++ [c]) (shards.set i t)
                  hfuel2 hsorted2 hseen2 hnd2 hdom2 hpair2 hlen2
              rw [hres]
              refine ⟨?_, R1, R2, R3, ?_, ?_⟩
              · obtain ⟨t2, ht2, ht2m⟩ := R0
                refine ⟨c :: t2, by rw [ht2]; simp, ?_⟩
                intro e he
                rcases List.mem_cons.mp he with rfl | he2
                · exact hcmem
                · exact hsub e (ht2m e he2)
              · intro x hx hpk e he
                rcases hsplit x hx with heq | hx2
                · exfalso
                  apply hpk
                  obtain ⟨t2, ht2, -⟩ := R0
                  rw [ht2, heq]
                  simp
                · exact R4 x hx2 hpk e he
              · intro hlt x hx
                rcases hsplit x hx with heq | hx2
                · obtain ⟨t2, ht2, -⟩ := R0
                  rw [ht2, heq]
                  simp
                · exact R5 hlt x hx2

/-- Claim C8: every `SearchResult` constructed with parameters
`(num_queries, topk)` has `distances_` and `ids_` both of length
`num_queries * topk`, and `get_row_count()` returns `num_queries * topk`. -/
theorem searchResult_shape_invariant (num_queries topk : Nat) :
    (SearchResult.mk0 num_queries topk).distances_.length = num_queries * topk ∧
    (SearchResult.mk0 num_queries topk).ids_.length = num_queries * topk ∧
    (SearchResult.mk0 num_queries topk).get_row_count = num_queries * topk := by
  refine ⟨?_, ?_, ?_⟩ <;>
    simp [SearchResult.mk0, SearchResult.get_row_count, Nat.mul_comm]

/-- Claim C9: `datatype_sizeof` returns the fixed element byte width for
every fixed-width scalar type independent of `dim`, `4 * dim` for float
vectors, `dim / 8` for binary vectors when `8 ∣ dim` (fatal assertion
otherwise), and throws `invalid_argument` exactly on the remaining types. -/
theorem datatype_sizeof_spec (dim : Nat) :
    (dim % 8 = 0 → datatype_sizeof DataType.VECTOR_BINARY dim = Except.ok (dim / 8)) ∧
    (dim % 8 ≠ 0 →
      datatype_sizeof DataType.VECTOR_BINARY dim = Except.error SizeofErr.assertionFailure) ∧
    datatype_sizeof DataType.BOOL dim = Except.ok 1 ∧
    datatype_sizeof DataType.INT8 dim = Except.ok 1 ∧
    datatype_sizeof DataType.INT16 dim = Except.ok 2 ∧
    datatype_sizeof DataType.INT32 dim = Except.ok 4 ∧
    datatype_sizeof DataType.INT64 dim = Except.ok 8 ∧
    datatype_sizeof DataType.FLOAT dim = Except.ok 4 ∧
    datatype_sizeof DataType.DOUBLE dim = Except.ok 8 ∧
    datatype_sizeof DataType.VECTOR_FLOAT dim = Except.ok (4 * dim) ∧
    (∀ t : DataType, datatype_sizeof t dim = Except.error SizeofErr.invalidArgument ↔
      (t = DataType.NONE ∨ t = DataType.STRING ∨ t = DataType.VARCHAR)) := by
  refine ⟨?_, ?_, rfl, rfl, rfl, rfl, rfl, rfl, rfl, rfl, ?_⟩
  · intro h; simp [datatype_sizeof, h]
  · intro h; simp [datatype_sizeof, h]
  · intro t
    cases t <;> simp [datatype_sizeof] <;> split <;> simp

/-- Witness for C9 at concrete dimensions. -/
theorem datatype_sizeof_spec_witness :
    datatype_sizeof DataType.VECTOR_BINARY 16 = Except.ok 2 ∧
    datatype_sizeof DataType.VECTOR_BINARY 12 = Except.error SizeofErr.assertionFailure :=
  ⟨(datatype_sizeof_spec 16).1 (by decide), (datatype_sizeof_spec 12).2.1 (by decide)⟩

/-- Claim C4 counterexample: the merge comparator from ReduceStructure.h
takes no metric input and compares raw distances only; of two candidates
with distances 2 and 1, the larger-distance one is never ranked better
(never popped first), contradicting the claimed inner-product-family
direction. -/
theorem comparator_not_metric_aware :
    (pairOfDistance 2).distance_ > (pairOfDistance 1).distance_ ∧
    comparatorRanksBetter (pairOfDistance 2) (pairOfDistance 1) = false ∧
    comparatorRanksBetter (pairOfDistance 1) (pairOfDistance 2) = true := by
  decide

/-- Claim C4 (amended): the comparator used to order `SearchResultPair`
candidates is metric-blind and always ascending by distance: a candidate
is ranked better (popped first) exactly when its distance is strictly
smaller, for every metric including the inner-product family. -/
theorem comparator_ascending_distance (a b : SearchResultPair) :
    comparatorRanksBetter a b = decide (a.distance_ < b.distance_) := by
  simp [comparatorRanksBetter, SearchResultPairComparator, SearchResultPair.gtPair]

/-- Claim C5: `advance()` reaching the right bound installs the
`INVALID_PK` / float-max sentinel; any further `advance()` on an exhausted
cursor keeps the sentinel (absorbing); `advance()` strictly below the
right bound loads the primary key and distance at the new offset. -/
theorem searchResultPair_advance_spec (p : SearchResultPair) :
    (p.offset_ + 1 ≥ p.offset_rb_ →
      p.advance = Except.ok
        { p with offset_ := p.offset_ + 1, primary_key_ := INVALID_PK, distance_ := floatMax }) ∧
    (∀ pk d, p.offset_ + 1 < p.offset_rb_ →
      vecAt p.search_result_.primary_keys_ (p.offset_ + 1) = Except.ok pk →
      vecAt p.search_result_.distances_ (p.offset_ + 1) = Except.ok d →
      p.advance = Except.ok
        { p with offset_ := p.offset_ + 1, primary_key_ := PkType.intPk pk, distance_ := d }) := by
  constructor
  · intro h
    have hnot : ¬ (p.offset_ + 1 < p.offset_rb_) := not_lt.mpr h
    simp [SearchResultPair.advance, hnot]
  · intro pk d hlt hpk hd
    simp [SearchResultPair.advance, hlt, hpk, hd]

/-- Witness for C5: on a concrete two-candidate cursor, one `advance`
loads the second candidate, the next reaches the bound and installs the
sentinel, and a further `advance` keeps the sentinel. -/
theorem searchResultPair_advance_spec_witness :
    pairA.advance = Except.ok
      { pairA with offset_ := 1, primary_key_ := PkType.intPk 20, distance_ := 2 } ∧
    ({ pairA with offset_ := 1, primary_key_ := PkType.intPk 20, distance_ := 2
       : SearchResultPair }).advance = Except.ok
      { pairA with offset_ := 2, primary_key_ := INVALID_PK, distance_ := floatMax } ∧
    ({ pairA with offset_ := 2, primary_key_ := INVALID_PK, distance_ := floatMax
       : SearchResultPair }).advance = Except.ok
      { pairA with offset_ := 3, primary_key_ := INVALID_PK, distance_ := floatMax } :=
  ⟨(searchResultPair_advance_spec pairA).2 20 2 (by decide) rfl rfl,
   (searchResultPair_advance_spec _).1 (by decide),
   (searchResultPair_advance_spec _).1 (by decide)⟩

/-- Claim C1: for shard results that all share `num_queries = Q` and
`topk = K` and are sorted best-first per query, the reduced output for
each query `q < Q` draws its entries from the union of the shard
candidates for that query, contains no primary key more than once, has
length at most `K`, is ordered best-first by metric-consistent score,
scores every emitted entry at least as well as any union candidate whose
primary key it omits (so it is the true top-K by metric-consistent score
over the union), and falls short of `K` entries only when it already
contains every primary key of the union. -/
theorem reduce_true_topk (lower_is_better : Bool) (results : List SearchResult)
    (K Q q : Nat) (hq : q < Q)
    (hshape : ∀ r ∈ results, r.num_queries_ = Q ∧ r.topk_ = K)
    (hsorted : ∀ r ∈ results,
      (queryCands lower_is_better r q).Pairwise fun a b => a.key ≤ b.key) :
    ((reducedForQuery lower_is_better results K q).map Cand.pk).Nodup ∧
    (reducedForQuery lower_is_better results K q).length ≤ K ∧
    (∀ e ∈ reducedForQuery lower_is_better results K q,
      e ∈ allCandidates lower_is_better results q) ∧
    (reducedForQuery lower_is_better results K q).Pairwise
      (fun a b => a.key ≤ b.key) ∧
    (∀ c ∈ allCandidates lower_is_better results q,
      c.pk ∉ (reducedForQuery lower_is_better results K q).map Cand.pk →
      ∀ e ∈ reducedForQuery lower_is_better results K q, e.key ≤ c.key) ∧
    ((reducedForQuery lower_is_better results K q).length < K →
      ∀ c ∈ allCandidates lower_is_better results q,
        c.pk ∈ (reducedForQuery lower_is_better results K q).map Cand.pk) := by
  have hs : ∀ s ∈ results.map (fun r => queryCands lower_is_better r q),
      s.Pairwise fun a b => a.key ≤ b.key := by
    intro s hsm
    obtain ⟨r, hr, rfl⟩ := List.mem_map.mp hsm
    exact hsorted r hr
  obtain ⟨R0, R1, R2, R3, R4, R5⟩ :=
    mergeLoop_spec (totalSize (results.map fun r => queryCands lower_is_better r q))
      K [] [] (results.map fun r => queryCands lower_is_better r q)
      (le_refl _) hs (by simp) (by simp) (by simp) (by simp) (by simp)
  refine ⟨R1, R2, ?_, R3, R4, R5⟩
  obtain ⟨t2, ht2, ht2m⟩ := R0
  intro e he
  have he2 : e ∈ ([] : List Cand) ++ t2 := by
    rw [← ht2]
    exact he
  rw [List.nil_append] at he2
  exact ht2m e he2

/-- Witness for C1: two shards over one query sharing primary key 10; the
reduced output for query 0 has pairwise distinct primary keys, at most 2
entries, and draws from the union of the two shards. -/
theorem reduce_true_topk_witness :
    ((reducedForQuery true [r1W, r2W] 2 0).map Cand.pk).Nodup ∧
    (reducedForQuery true [r1W, r2W] 2 0).length ≤ 2 ∧
    (∀ e ∈ reducedForQuery true [r1W, r2W] 2 0,
      e ∈ allCandidates true [r1W, r2W] 0) :=
  ⟨(reduce_true_topk true [r1W, r2W] 2 1 0 (by decide) (by decide) (by decide)).1,
   (reduce_true_topk true [r1W, r2W] 2 1 0 (by decide) (by decide) (by decide)).2.1,
   (reduce_true_topk true [r1W, r2W] 2 1 0 (by decide) (by decide) (by decide)).2.2.1⟩

end Segcore
